import Mathlib

/-!
Verification of the appointment-text field extractor of this repository.

The extractor lives in `src/unnamed/part_001` (standalone module exporting
`parseAppointment`) and, identically, as `fallbackParser` inside
`src/src/lib/parser.ts`.  Strings are modelled as `List Char`; JavaScript
`Date` values (millisecond timestamps) are modelled as `Int` milliseconds
since the Unix epoch with a fixed zero UTC offset (the repository has no
timezone-dependent logic in scope); `Date.prototype.toISOString` is an
injective rendering of that timestamp, so record equality is stated on the
timestamp.  Each JS regular expression used by the source is embedded as a
bespoke leftmost-scan backtracking matcher faithful to JS semantics
(greedy quantifiers with backtracking, `\b` word boundaries, the exact
`\s` / `\d` / `\w` character classes).
-/

-- ## Character classes (JS regex semantics)

/-- Code points of the JS `\s` class (WhiteSpace ∪ LineTerminator),
also the set trimmed by `String.prototype.trim`. -/
def wsCodes : List Nat :=
  [9, 10, 11, 12, 13, 32, 160, 5760, 8192, 8193, 8194, 8195, 8196, 8197,
   8198, 8199, 8200, 8201, 8202, 8232, 8233, 8239, 8287, 12288, 65279]

/-- JS `\s` (and the `trim` whitespace set). -/
def isJSWS (c : Char) : Bool := decide (c.toNat ∈ wsCodes)

/-- JS `\d`, i.e. `[0-9]`. -/
def isDigitC (c : Char) : Bool := decide (48 ≤ c.toNat ∧ c.toNat ≤ 57)

/-- `[A-Z]`. -/
def isUpperC (c : Char) : Bool := decide (65 ≤ c.toNat ∧ c.toNat ≤ 90)

/-- `[a-z]`. -/
def isLowerC (c : Char) : Bool := decide (97 ≤ c.toNat ∧ c.toNat ≤ 122)

/-- JS `\w`, i.e. `[A-Za-z0-9_]`. -/
def isWordC (c : Char) : Bool :=
  isDigitC c || isUpperC c || isLowerC c || decide (c.toNat = 95)

/-- The class `[\s.-]` used between phone digit groups. -/
def isSepC (c : Char) : Bool :=
  isJSWS c || decide (c.toNat = 46) || decide (c.toNat = 45)

/-- `String.prototype.toLowerCase` restricted to the ASCII range the
source feeds it (A–Z mapped down, everything else fixed). -/
def lowerC (c : Char) : Char :=
  if isUpperC c then Char.ofNat (c.toNat + 32) else c

-- ## String primitives (JS semantics)

/-- `trim`: strip the JS whitespace set from both ends. -/
def trimL (s : List Char) : List Char :=
  ((s.dropWhile isJSWS).reverse.dropWhile isJSWS).reverse

/-- Does `s` start with `pat`? -/
def startsWithL : List Char → List Char → Bool
  | [], _ => true
  | _ :: _, [] => false
  | p :: ps, c :: cs => p = c && startsWithL ps cs

/-- `String.prototype.includes pat`. -/
def containsL (pat : List Char) : List Char → Bool
  | [] => startsWithL pat []
  | c :: cs => startsWithL pat (c :: cs) || containsL pat cs

/-- `String.prototype.replace(pat, '')` for a plain-string `pat`: delete
the first occurrence of `pat`, or return the string unchanged when `pat`
does not occur. -/
def removeFirst : List Char → List Char → List Char
  | [], _ => []
  | c :: cs, pat =>
    if startsWithL pat (c :: cs) then (c :: cs).drop pat.length
    else c :: removeFirst cs pat

/-- `parseInt` on an all-digit string (value of the digit sequence). -/
def parseIntL (ds : List Char) : Int :=
  ds.foldl (fun a c => a * 10 + ((c.toNat : Int) - 48)) 0

/-- Take exactly `n` leading `\d` characters, returning them and the rest. -/
def takeDigits : Nat → List Char → Option (List Char × List Char)
  | 0, s => some ([], s)
  | _ + 1, [] => none
  | n + 1, c :: cs =>
    if isDigitC c then (takeDigits n cs).map (fun p => (c :: p.1, p.2)) else none

/-- A `\b` boundary holds after a word character at this point: the next
character must be absent or a non-word character. -/
def bAfter : List Char → Bool
  | [] => true
  | c :: _ => !isWordC c

-- ## Name sub-extractor: `/^([A-Z][a-z]+(?:\s+[A-Z][a-z]+)*)/`

/-- One `[A-Z][a-z]+` word at the head of the text, with the rest. -/
def nameWord : List Char → Option (List Char × List Char)
  | [] => none
  | c :: cs =>
    if isUpperC c then
      match cs.takeWhile isLowerC with
      | [] => none
      | l :: ls => some (c :: l :: ls, cs.dropWhile isLowerC)
    else none

/-- Greedy `(?:\s+[A-Z][a-z]+)*` (fuel-indexed; each step consumes at
least three characters so `s.length` fuel is always sufficient). -/
def nameTailF : Nat → List Char → List Char
  | 0, _ => []
  | fuel + 1, s =>
    match s.takeWhile isJSWS with
    | [] => []
    | w0 :: ws =>
      match nameWord (s.dropWhile isJSWS) with
      | some (w, rest) => (w0 :: ws) ++ w ++ nameTailF fuel rest
      | none => []

/-- Greedy `(?:\s+[A-Z][a-z]+)*` at the head of `s`. -/
def nameTail (s : List Char) : List Char := nameTailF s.length s

/-- `extractName`: the anchored match of
`/^([A-Z][a-z]+(?:\s+[A-Z][a-z]+)*)/`, or absent. -/
def extractName (s : List Char) : Option (List Char) :=
  match nameWord s with
  | some (w, rest) => some (w ++ nameTail rest)
  | none => none

-- ## Phone sub-extractor

/-- `\d{4}` (end of the first phone pattern). -/
def phoneTail2 (s : List Char) : Option (List Char) :=
  (takeDigits 4 s).map (·.1)

/-- `[\s.-]?\d{4}` with greedy backtracking on the optional separator. -/
def phoneSepTail2 : List Char → Option (List Char)
  | [] => phoneTail2 []
  | c :: cs =>
    if isSepC c then
      match phoneTail2 cs with
      | some m => some (c :: m)
      | none => phoneTail2 (c :: cs)
    else phoneTail2 (c :: cs)

/-- `\d{3}[\s.-]?\d{4}`. -/
def phoneMid (s : List Char) : Option (List Char) :=
  (takeDigits 3 s).bind fun p => (phoneSepTail2 p.2).map (p.1 ++ ·)

/-- `[\s.-]?\d{3}[\s.-]?\d{4}`. -/
def phoneSepMid : List Char → Option (List Char)
  | [] => phoneMid []
  | c :: cs =>
    if isSepC c then
      match phoneMid cs with
      | some m => some (c :: m)
      | none => phoneMid (c :: cs)
    else phoneMid (c :: cs)

/-- `\)?[\s.-]?\d{3}[\s.-]?\d{4}`. -/
def phoneRp : List Char → Option (List Char)
  | [] => phoneSepMid []
  | c :: cs =>
    if c = ')' then
      match phoneSepMid cs with
      | some m => some (c :: m)
      | none => phoneSepMid (c :: cs)
    else phoneSepMid (c :: cs)

/-- `\d{3}\)?[\s.-]?\d{3}[\s.-]?\d{4}`. -/
def phoneACore (s : List Char) : Option (List Char) :=
  (takeDigits 3 s).bind fun p => (phoneRp p.2).map (p.1 ++ ·)

/-- Attempt of `/\(?\d{3}\)?[\s.-]?\d{3}[\s.-]?\d{4}/` at this position. -/
def phoneA : List Char → Option (List Char)
  | [] => phoneACore []
  | c :: cs =>
    if c = '(' then
      match phoneACore cs with
      | some m => some ('(' :: m)
      | none => phoneACore (c :: cs)
    else phoneACore (c :: cs)

/-- Leftmost match of the first phone pattern anywhere in the text. -/
def scanPhoneA : List Char → Option (List Char)
  | [] => none
  | c :: cs =>
    match phoneA (c :: cs) with
    | some m => some m
    | none => scanPhoneA cs

/-- Attempt of `/\d{10}/` at this position. -/
def phoneB (s : List Char) : Option (List Char) :=
  (takeDigits 10 s).map (·.1)

/-- Leftmost match of `/\d{10}/` anywhere in the text. -/
def scanPhoneB : List Char → Option (List Char)
  | [] => none
  | c :: cs =>
    match phoneB (c :: cs) with
    | some m => some m
    | none => scanPhoneB cs

/-- `match[0].replace(/\D/g, '')`. -/
def stripNonDigits (s : List Char) : List Char := s.filter isDigitC

/-- Format ten digits as `DDD-DDD-DDDD`. -/
def fmtPhone (ds : List Char) : List Char :=
  ds.take 3 ++ '-' :: ((ds.drop 3).take 3 ++ '-' :: ds.drop 6)

structure PhoneMatch where
  raw : List Char
  formatted : List Char
deriving DecidableEq, Repr

/-- Second iteration of `extractPhone`'s pattern loop (`/\d{10}/`). -/
def extractPhoneB (s : List Char) : Option PhoneMatch :=
  match scanPhoneB s with
  | some m =>
    let ds := stripNonDigits m
    if ds.length = 10 then some ⟨m, fmtPhone ds⟩ else none
  | none => none

/-- `extractPhone`: try the two patterns in order; a match is accepted only
when stripping non-digits leaves exactly ten digits. -/
def extractPhone (s : List Char) : Option PhoneMatch :=
  match scanPhoneA s with
  | some m =>
    let ds := stripNonDigits m
    if ds.length = 10 then some ⟨m, fmtPhone ds⟩ else extractPhoneB s
  | none => extractPhoneB s

-- ## Weekday matcher: `/\b(next\s+)?(monday|...|sunday)\b/` on lowercased text

/-- Alternation order of the weekday regex. -/
def weekdayNames : List (List Char) :=
  ["monday".data, "tuesday".data, "wednesday".data, "thursday".data,
   "friday".data, "saturday".data, "sunday".data]

/-- The `weekdays` array used with `indexOf` (Sunday first). -/
def weekdaysIdx : List (List Char) :=
  ["sunday".data, "monday".data, "tuesday".data, "wednesday".data,
   "thursday".data, "friday".data, "saturday".data]

/-- `weekdays.indexOf(name)` (−1 when absent, as in JS). -/
def wdIndex (w : List Char) : Int :=
  match weekdaysIdx.findIdx? (fun x => x == w) with
  | some i => (i : Int)
  | none => -1

/-- A weekday name matching at this position, with the trailing `\b`. -/
def tryWeekdayNameAt (s : List Char) : Option (List Char) :=
  weekdayNames.find? (fun w => startsWithL w s && bAfter (s.drop w.length))

/-- The `(next\s+)?`-present alternative at this position. -/
def tryNextWeekday (s : List Char) : Option (List Char × List Char × Bool) :=
  if startsWithL "next".data s then
    let rest := s.drop 4
    match rest.takeWhile isJSWS with
    | [] => none
    | w0 :: ws =>
      (tryWeekdayNameAt (rest.dropWhile isJSWS)).map
        (fun w => ("next".data ++ (w0 :: ws) ++ w, w, true))
  else none

/-- Attempt of the weekday regex at this position (greedy: the optional
`next` group is tried first, as JS backtracking does).  Returns
(whole match, weekday name, `next` group present). -/
def tryWeekdayAt (s : List Char) : Option (List Char × List Char × Bool) :=
  match tryNextWeekday s with
  | some r => some r
  | none => (tryWeekdayNameAt s).map (fun w => (w, w, false))

/-- Leftmost-scan of the weekday regex; `prevWord` tracks whether the
character before the current position is a `\w` character, implementing
the leading `\b`. -/
def scanWeekday (prevWord : Bool) : List Char → Option (List Char × List Char × Bool)
  | [] => none
  | c :: cs =>
    match (if prevWord then none else tryWeekdayAt (c :: cs)) with
    | some r => some r
    | none => scanWeekday (isWordC c) cs

-- ## Numeric date matcher: `/\b(\d{1,2})\/(\d{1,2})(?:\/(\d{2,4}))?\b/`

/-- `\d{n}` followed by a `\b`: one year-length alternative. -/
def tryYearLen (n : Nat) (s : List Char) : Option (List Char) :=
  match takeDigits n s with
  | some (ds, r) => if bAfter r then some ds else none
  | none => none

/-- Greedy `\d{2,4}` followed by `\b` (longest alternative first). -/
def tryYear (s : List Char) : Option (List Char) :=
  match tryYearLen 4 s with
  | some ds => some ds
  | none =>
    match tryYearLen 3 s with
    | some ds => some ds
    | none => tryYearLen 2 s

/-- The optional `(?:\/(\d{2,4}))?\b` group: matched characters and the
year digits. -/
def trySlashYear : List Char → Option (List Char × List Char)
  | [] => none
  | c :: cs =>
    if c = '/' then (tryYear cs).map (fun y => (c :: y, y)) else none

/-- Day digits (`\d{n}`) with optional year group, else a bare `\b`.
Returns (matched characters, day digits, year digits?). -/
def tryDayLen (n : Nat) (s : List Char) :
    Option (List Char × List Char × Option (List Char)) :=
  match takeDigits n s with
  | some (ds, r) =>
    match trySlashYear r with
    | some (m, y) => some (ds ++ m, ds, some y)
    | none => if bAfter r then some (ds, ds, none) else none
  | none => none

/-- Greedy `\d{1,2}` for the day (two digits tried first). -/
def tryDayPart (s : List Char) :
    Option (List Char × List Char × Option (List Char)) :=
  match tryDayLen 2 s with
  | some r => some r
  | none => tryDayLen 1 s

/-- Month digits then `/` then the day part.  Returns
(whole match, month digits, day digits, year digits?). -/
def tryMonthLen (n : Nat) (s : List Char) :
    Option (List Char × List Char × List Char × Option (List Char)) :=
  match takeDigits n s with
  | some (ds, r) =>
    match r with
    | [] => none
    | c :: r2 =>
      if c = '/' then
        (tryDayPart r2).map (fun p => (ds ++ c :: p.1, ds, p.2.1, p.2.2))
      else none
  | none => none

/-- Attempt of the numeric date regex at this position. -/
def tryDateAt (s : List Char) :
    Option (List Char × List Char × List Char × Option (List Char)) :=
  match tryMonthLen 2 s with
  | some r => some r
  | none => tryMonthLen 1 s

/-- Leftmost-scan of the numeric date regex (leading `\b` via `prevWord`). -/
def scanDate (prevWord : Bool) :
    List Char → Option (List Char × List Char × List Char × Option (List Char))
  | [] => none
  | c :: cs =>
    match (if prevWord then none else tryDateAt (c :: cs)) with
    | some r => some r
    | none => scanDate (isWordC c) cs

-- ## 12-hour time matcher: `/\b(\d{1,2})(?::(\d{2}))?\s*(am|pm)\b/i`

/-- `(am|pm)\b`, case-insensitive; returns (matched original characters,
lowercased meridiem). -/
def tryMeridiem : List Char → Option (List Char × List Char)
  | a :: b :: r =>
    if (lowerC a = 'a' || lowerC a = 'p') && (lowerC b = 'm') && bAfter r then
      some ([a, b], [lowerC a, lowerC b])
    else none
  | _ => none

/-- `\s*(am|pm)\b` (greedy whitespace). -/
def trySpacesMer (s : List Char) : Option (List Char × List Char) :=
  (tryMeridiem (s.dropWhile isJSWS)).map
    (fun p => (s.takeWhile isJSWS ++ p.1, p.2))

/-- The optional `(?::(\d{2}))?` group: matched characters, minute digits,
rest. -/
def tryColonMM : List Char → Option (List Char × List Char × List Char)
  | [] => none
  | c :: cs =>
    if c = ':' then (takeDigits 2 cs).map (fun p => (c :: p.1, p.1, p.2))
    else none

/-- Hour digits (`\d{n}`) then the optional minutes group then `\s*(am|pm)\b`.
Returns (whole match, hour digits, minute digits?, lowercased meridiem). -/
def tryHourLen (n : Nat) (s : List Char) :
    Option (List Char × List Char × Option (List Char) × List Char) :=
  match takeDigits n s with
  | some (hs, r) =>
    match tryColonMM r with
    | some (cm, mm, r2) =>
      match trySpacesMer r2 with
      | some (sm, mer) => some (hs ++ cm ++ sm, hs, some mm, mer)
      | none =>
        (trySpacesMer r).map (fun p => (hs ++ p.1, hs, none, p.2))
    | none =>
      (trySpacesMer r).map (fun p => (hs ++ p.1, hs, none, p.2))
  | none => none

/-- Attempt of the 12-hour regex at this position (greedy `\d{1,2}`). -/
def tryTime12At (s : List Char) :
    Option (List Char × List Char × Option (List Char) × List Char) :=
  match tryHourLen 2 s with
  | some r => some r
  | none => tryHourLen 1 s

/-- Leftmost-scan of the 12-hour regex (leading `\b` via `prevWord`). -/
def scanTime12 (prevWord : Bool) :
    List Char → Option (List Char × List Char × Option (List Char) × List Char)
  | [] => none
  | c :: cs =>
    match (if prevWord then none else tryTime12At (c :: cs)) with
    | some r => some r
    | none => scanTime12 (isWordC c) cs

-- ## 24-hour time matcher: `/\b(\d{1,2}):(\d{2})\b/`

/-- Hour digits then `:` then two minute digits then `\b`. -/
def tryT24Len (n : Nat) (s : List Char) :
    Option (List Char × List Char × List Char) :=
  match takeDigits n s with
  | some (hs, r) =>
    match r with
    | [] => none
    | c :: r2 =>
      if c = ':' then
        (takeDigits 2 r2).bind fun p =>
          if bAfter p.2 then some (hs ++ c :: p.1, hs, p.1) else none
      else none
  | none => none

/-- Attempt of the 24-hour regex at this position. -/
def tryTime24At (s : List Char) : Option (List Char × List Char × List Char) :=
  match tryT24Len 2 s with
  | some r => some r
  | none => tryT24Len 1 s

/-- Leftmost-scan of the 24-hour regex (leading `\b` via `prevWord`). -/
def scanTime24 (prevWord : Bool) :
    List Char → Option (List Char × List Char × List Char)
  | [] => none
  | c :: cs =>
    match (if prevWord then none else tryTime24At (c :: cs)) with
    | some r => some r
    | none => scanTime24 (isWordC c) cs

-- ## Date arithmetic (JS `Date`, fixed zero offset)

def dayMs : Int := 86400000

/-- Midnight of the calendar day containing `t` (Euclidean division by a
positive constant is floor division, matching JS day computation). -/
def startOfDay (t : Int) : Int := (t / dayMs) * dayMs

/-- `setHours(h, m, 0, 0)`: hour/minute overflow rolls the date, exactly
as JS date normalization does. -/
def setHM (t h m : Int) : Int := startOfDay t + h * 3600000 + m * 60000

/-- `d.setDate(d.getDate() + n)`: add `n` calendar days. -/
def addDays (t n : Int) : Int := t + n * dayMs

/-- `getDay()`: 0 = Sunday.  Day 0 (1970-01-01) was a Thursday. -/
def weekdayOf (t : Int) : Int := (t / dayMs + 4) % 7

/-- Day number of a civil date (year, month 1–12, day), days since
1970-01-01; standard proleptic-Gregorian conversion. -/
def hinnantDays (y m d : Int) : Int :=
  let y' := if m ≤ 2 then y - 1 else y
  let era := y' / 400
  let yoe := y' - era * 400
  let mp := (m + 9) % 12
  let doy := (153 * mp + 2) / 5 + d - 1
  let doe := yoe * 365 + yoe / 4 - yoe / 100 + doy
  era * 146097 + doe - 719468

/-- Civil year of a day number (inverse direction of `hinnantDays`). -/
def civilYearOfDay (z : Int) : Int :=
  let z' := z + 719468
  let era := z' / 146097
  let doe := z' - era * 146097
  let yoe := (doe - doe / 1460 + doe / 36524 - doe / 146096) / 365
  let y := yoe + era * 400
  let doy := doe - (365 * yoe + yoe / 4 - yoe / 100)
  let mp := (5 * doy + 2) / 153
  let m := if mp < 10 then mp + 3 else mp - 9
  if m ≤ 2 then y + 1 else y

/-- `getFullYear()`. -/
def getFullYear (t : Int) : Int := civilYearOfDay (t / dayMs)

/-- `new Date(year, month, day)` at local midnight: month is 0-based and
normalized into the year, day overflow normalized by day arithmetic, and
years 0–99 mapped to 1900–1999 as JS does. -/
def mkDateJS (year month day : Int) : Int :=
  let yFull := if 0 ≤ year ∧ year ≤ 99 then 1900 + year else year
  let ym := yFull + month / 12
  let mn := month % 12
  (hinnantDays ym (mn + 1) 1 + (day - 1)) * dayMs

-- ## `extractDateTime` (rule cascade on a working date)

structure DTMatch where
  raw : List Char
  datetime : Int
deriving DecidableEq, Repr

/-- Stage 1: the `tomorrow` substring check.  State is
(working date, accumulated matched text). -/
def tomorrowStage (lower : List Char) (now : Int) : Int × List Char :=
  if containsL "tomorrow".data lower then (addDays now 1, "tomorrow".data)
  else (now, [])

/-- Stage 2: weekday name; overwrites the state when it matches. -/
def weekdayStage (lower : List Char) (now : Int) (st : Int × List Char) :
    Int × List Char :=
  match scanWeekday false lower with
  | some (m0, wname, isNext) =>
    let target := wdIndex wname
    let cur := weekdayOf now
    let d0 := target - cur
    let d := if d0 ≤ 0 ∨ isNext = true then d0 + 7 else d0
    (addDays now d, m0)
  | none => st

/-- Stage 3: explicit `M/D(/Y)` date; overwrites the state when it
matches. -/
def numericDateStage (text : List Char) (now : Int) (st : Int × List Char) :
    Int × List Char :=
  match scanDate false text with
  | some (m0, ms, ds, ys) =>
    let month := parseIntL ms - 1
    let day := parseIntL ds
    let year :=
      match ys with
      | some y => if y.length = 2 then 2000 + parseIntL y else parseIntL y
      | none => getFullYear now
    (mkDateJS year month day, m0)
  | none => st

/-- Stage 4: 12-hour clock.  Returns (time, matched text to append). -/
def time12Stage (text : List Char) :
    Option (Int × Int) × Option (List Char) :=
  match scanTime12 false text with
  | some (m0, hs, mm, mer) =>
    let h0 := parseIntL hs
    let h1 := if mer = "pm".data ∧ h0 ≠ 12 then h0 + 12 else h0
    let h2 := if mer = "am".data ∧ h0 = 12 then 0 else h1
    (some (h2, match mm with | some m => parseIntL m | none => 0), some m0)
  | none => (none, none)

/-- Stage 5: 24-hour clock, only taken when stage 4 did not match, and
only with hour in [0,24) and minute in [0,60). -/
def time24Stage (text : List Char) (had12 : Bool) :
    Option (Int × Int) × Option (List Char) :=
  match scanTime24 false text with
  | some (m0, hs, mm) =>
    if had12 = false then
      let h := parseIntL hs
      let mi := parseIntL mm
      if 0 ≤ h ∧ h < 24 ∧ 0 ≤ mi ∧ mi < 60 then (some (h, mi), some m0)
      else (none, none)
    else (none, none)
  | none => (none, none)

/-- `extractDateTime`: the five-stage cascade; always returns a value,
defaulting the time to 09:00 local when no time stage matched. -/
def extractDateTime (text : List Char) (now : Int) : Option DTMatch :=
  let lower := text.map lowerC
  let st0 := tomorrowStage lower now
  let st1 := weekdayStage lower now st0
  let st2 := numericDateStage text now st1
  let t12 := time12Stage text
  let acc1 := match t12.2 with | some m => st2.2 ++ ' ' :: m | none => st2.2
  let t24 := time24Stage text (scanTime12 false text).isSome
  let ttF := match t24.1 with | some v => some v | none => t12.1
  let accF := match t24.2 with | some m => acc1 ++ ' ' :: m | none => acc1
  let final :=
    match ttF with
    | some (h, mi) => setHM st2.1 h mi
    | none => setHM st2.1 9 0
  some ⟨trimL accF, final⟩

-- ## Orchestrator (`parseAppointment` in part_001, identically
-- `fallbackParser` in parser.ts)

structure ParsedAppointment where
  name : List Char
  phone : List Char
  details : List Char
  datetime : Int
deriving DecidableEq, Repr

/-- `remainingText = remainingText.replace(name, '').trim()` when the name
sub-extractor succeeded. -/
def afterNameStep (t : List Char) : List Char :=
  match extractName t with
  | some n => trimL (removeFirst t n)
  | none => t

/-- Phone removal step. -/
def afterPhoneStep (t : List Char) : List Char :=
  match extractPhone t with
  | some p => trimL (removeFirst t p.raw)
  | none => t

/-- Date/time removal step. -/
def afterDTStep (t : List Char) (dt : Option DTMatch) : List Char :=
  match dt with
  | some d => trimL (removeFirst t d.raw)
  | none => t

/-- The rule-based extractor (`extract` in the spec).  Absent exactly when
the trimmed input is empty; otherwise every field is populated, with
sentinels where a sub-extractor failed. -/
def parseAppointment (text : List Char) (now : Int) :
    Option ParsedAppointment :=
  if (trimL text).isEmpty then none
  else
    let r0 := trimL text
    let r1 := afterNameStep r0
    let r2 := afterPhoneStep r1
    let dtO := extractDateTime r2 now
    let r3 := afterDTStep r2 dtO
    let details :=
      if (trimL r3).isEmpty then "No details provided".data else trimL r3
    some
      { name := match extractName r0 with
                | some n => n
                | none => "Unknown".data
        phone := match extractPhone r1 with
                 | some p => p.formatted
                 | none => "No phone".data
        details := details
        datetime := match dtO with
                    | some d => d.datetime
                    | none => now }

-- ## Remote path of `src/src/lib/parser.ts`

/-- Outcome of the remote (DeepSeek) call, abstracting the network and
JSON layers of `parser.ts`: each failure constructor corresponds to one
guarded early-fallback or caught exception in the source. -/
inductive RemoteOutcome where
  | noApiKey : RemoteOutcome
  | fetchError : RemoteOutcome
  | httpError (status : Int) (body : List Char) : RemoteOutcome
  | noContent : RemoteOutcome
  | badJson (content : List Char) : RemoteOutcome
  | parsed (name phone details : Option (List Char)) (datetime : Option Int) :
      RemoteOutcome
deriving DecidableEq

/-- The failure outcomes listed by the spec: network error or exception,
non-success HTTP status, unparsable body, missing expected field. -/
def RemoteOutcome.isFail : RemoteOutcome → Bool
  | .fetchError => true
  | .httpError _ _ => true
  | .noContent => true
  | .badJson _ => true
  | _ => false

/-- The async `parseAppointment` of `parser.ts`: on any failure of the
remote path it returns `fallbackParser(text)` on the original input; on a
parsed response it fills sentinels for missing fields and re-formats a
ten-digit phone. -/
def parseAppointmentRemote (outcome : RemoteOutcome) (text : List Char)
    (now : Int) : Option ParsedAppointment :=
  if (trimL text).isEmpty then none
  else
    match outcome with
    | .noApiKey => parseAppointment text now
    | .fetchError => parseAppointment text now
    | .httpError _ _ => parseAppointment text now
    | .noContent => parseAppointment text now
    | .badJson _ => parseAppointment text now
    | .parsed nameF phoneF detailsF dtF =>
      let fPhone :=
        match phoneF with
        | some p =>
          let ds := stripNonDigits p
          if ds.length = 10 then fmtPhone ds else p
        | none => "No phone".data
      some
        { name := nameF.getD "Unknown".data
          phone := fPhone
          details := detailsF.getD "No details provided".data
          datetime := dtF.getD now }

-- ## Spec-side predicates (used only to state claims)

/-- State machine for the word grammar `[A-Z][a-z]+(\s+[A-Z][a-z]+)*`:
state 0 expects the first lowercase letter of a word, state 1 is inside a
word after at least one lowercase letter, state 2 is inside a whitespace
separator run. -/
def runSt : Nat → List Char → Bool
  | 0, [] => false
  | 0, c :: cs => isLowerC c && runSt 1 cs
  | 1, [] => true
  | 1, c :: cs => (isLowerC c && runSt 1 cs) || (isJSWS c && runSt 2 cs)
  | _, [] => false
  | _, c :: cs => (isJSWS c && runSt 2 cs) || (isUpperC c && runSt 0 cs)

/-- Whole-string recognizer for `[A-Z][a-z]+(\s+[A-Z][a-z]+)*`
(capitalized words separated by whitespace runs). -/
def isWsRunB : List Char → Bool
  | [] => false
  | c :: cs => isUpperC c && runSt 0 cs

/-- Whole-string recognizer for the tail grammar `(\s+[A-Z][a-z]+)*`. -/
def runT : List Char → Bool
  | [] => true
  | c :: cs => isJSWS c && runSt 2 cs

/-- Split on `' '`, keeping empty segments (used to state the claim's
"separated by single spaces" reading). -/
def splitSp : List Char → List (List Char)
  | [] => [[]]
  | c :: cs =>
    if c = ' ' then [] :: splitSp cs
    else
      match splitSp cs with
      | h :: t => (c :: h) :: t
      | [] => [[c]]

/-- One capitalized word: a capital letter followed by one or more
lowercase letters. -/
def specNameWordB : List Char → Bool
  | [] => false
  | c :: cs => isUpperC c && !cs.isEmpty && cs.all isLowerC

/-- The claim's reading of the name shape: capitalized words separated by
single spaces. -/
def isSingleSpacedRun (s : List Char) : Bool :=
  !s.isEmpty && (splitSp s).all specNameWordB

-- ## Basic lemmas

theorem digit_toNat {c : Char} (h : isDigitC c = true) :
    48 ≤ c.toNat ∧ c.toNat ≤ 57 := by
  simpa [isDigitC] using h

theorem digit_ne_of (c x : Char) (h : isDigitC c = true)
    (hx : isDigitC x = false) : (c = x) = False := by
  refine eq_false fun he => ?_
  subst he
  rw [h] at hx
  exact Bool.noConfusion hx

theorem digit_ne_of' (c x : Char) (h : isDigitC c = true)
    (hx : isDigitC x = false) : (x = c) = False := by
  refine eq_false fun he => ?_
  subst he
  rw [h] at hx
  exact Bool.noConfusion hx

theorem digit_not_ws {c : Char} (h : isDigitC c = true) : isJSWS c = false := by
  have hb := digit_toNat h
  simp [isJSWS, wsCodes]
  omega

theorem digit_not_upper {c : Char} (h : isDigitC c = true) :
    isUpperC c = false := by
  have hb := digit_toNat h
  simp only [isUpperC, decide_eq_false_iff_not]
  omega

theorem digit_lowerC {c : Char} (h : isDigitC c = true) : lowerC c = c := by
  simp [lowerC, digit_not_upper h]

theorem digit_isWord {c : Char} (h : isDigitC c = true) : isWordC c = true := by
  simp [isWordC, h]

theorem weekdayOf_bounds (t : Int) : 0 ≤ weekdayOf t ∧ weekdayOf t < 7 := by
  unfold weekdayOf
  exact ⟨Int.emod_nonneg _ (by norm_num), Int.emod_lt_of_pos _ (by norm_num)⟩

theorem weekday_addDays (t n : Int) :
    weekdayOf (addDays t n) = (weekdayOf t + n) % 7 := by
  unfold weekdayOf addDays dayMs
  rw [Int.add_mul_ediv_right _ _ (by norm_num : (86400000 : Int) ≠ 0)]
  omega

theorem startOfDay_setHM (t h mi : Int) (hh : 0 ≤ h) (h24 : h < 24)
    (hm : 0 ≤ mi) (hm60 : mi < 60) :
    startOfDay (setHM t h mi) = startOfDay t := by
  simp only [setHM, startOfDay, dayMs]
  omega

theorem startOfDay_addDays (t n : Int) :
    startOfDay (addDays t n) = addDays (startOfDay t) n := by
  unfold startOfDay addDays dayMs
  rw [Int.add_mul_ediv_right _ _ (by norm_num : (86400000 : Int) ≠ 0)]
  ring

theorem startOfDay_mkDateJS (y m d : Int) :
    startOfDay (mkDateJS y m d) = mkDateJS y m d := by
  unfold startOfDay mkDateJS dayMs
  rw [Int.mul_ediv_cancel _ (by norm_num : (86400000 : Int) ≠ 0)]

theorem startsWithL_self_append (m r : List Char) :
    startsWithL m (m ++ r) = true := by
  induction m with
  | nil => rfl
  | cons c cs ih => simpa [startsWithL] using ih

theorem startsWithL_iff (m s : List Char) :
    startsWithL m s = true ↔ ∃ r, s = m ++ r := by
  induction m generalizing s with
  | nil => simp [startsWithL]
  | cons c cs ih =>
    cases s with
    | nil =>
      simp [startsWithL]
    | cons d ds =>
      simp only [startsWithL, Bool.and_eq_true, decide_eq_true_eq, ih,
        List.cons_append, List.cons.injEq]
      constructor
      · rintro ⟨rfl, r, rfl⟩
        exact ⟨r, rfl, rfl⟩
      · rintro ⟨r, rfl, rfl⟩
        exact ⟨rfl, r, rfl⟩

-- ## C1: totality and sentinels

/-- C1: `extract` (`parseAppointment` / `fallbackParser`) is absent exactly
on inputs with empty trim; on every other input it returns a record whose
fields are always populated, with the sentinels `"Unknown"`, `"No phone"`,
`"No details provided"` exactly where the corresponding sub-extraction
fails. -/
theorem claim1_totality (s : List Char) (now : Int) :
    (trimL s = [] → parseAppointment s now = none) ∧
    (trimL s ≠ [] →
      ∃ r, parseAppointment s now = some r ∧
        (extractName (trimL s) = none → r.name = "Unknown".data) ∧
        (∀ n, extractName (trimL s) = some n → r.name = n) ∧
        (extractPhone (afterNameStep (trimL s)) = none →
          r.phone = "No phone".data) ∧
        (trimL (afterDTStep (afterPhoneStep (afterNameStep (trimL s)))
            (extractDateTime (afterPhoneStep (afterNameStep (trimL s))) now))
              = [] →
          r.details = "No details provided".data)) := by
  constructor
  · intro h
    simp [parseAppointment, h]
  · intro h
    have hne : (trimL s).isEmpty = false := by
      cases hh : trimL s with
      | nil => exact absurd hh h
      | cons a l => rfl
    simp only [parseAppointment, hne, Bool.false_eq_true, if_false]
    refine ⟨_, rfl, ?_, ?_, ?_, ?_⟩
    · intro hn
      simp [hn]
    · intro n hn
      simp [hn]
    · intro hp
      simp [hp]
    · intro hd
      simp [hd]

/-- Witness for C1 at concrete inputs. -/
theorem claim1_witness :
    parseAppointment "   ".data 0 = none ∧
    ∃ r, parseAppointment "call 99".data 0 = some r ∧
      r.name = "Unknown".data ∧ r.phone = "No phone".data := by
  constructor
  · exact (claim1_totality "   ".data 0).1 (by decide)
  · obtain ⟨r, hr, hn, -, hp, -⟩ :=
      (claim1_totality "call 99".data 0).2 (by decide)
    exact ⟨r, hr, hn (by decide), hp (by decide)⟩

-- ## C4: first-occurrence removal between stages

/-- C4: each successful sub-extraction is followed by removal of exactly
the first occurrence of the exact matched substring (then a trim), i.e.
JS `replace(matched, '')`: the occurrence at the earliest position is
deleted character-for-character, a string with no exact (case-sensitive)
occurrence is left unchanged, and everything after the removed occurrence
— including later identical occurrences — is kept verbatim. -/
theorem claim4_removal :
    (∀ t n, extractName t = some n →
      afterNameStep t = trimL (removeFirst t n)) ∧
    (∀ t p, extractPhone t = some p →
      afterPhoneStep t = trimL (removeFirst t p.raw)) ∧
    (∀ t d, afterDTStep t (some d) = trimL (removeFirst t d.raw)) ∧
    (∀ t m, containsL m t = false → removeFirst t m = t) ∧
    (∀ (t m a b : List Char), t = a ++ m ++ b →
      (∀ k, k < a.length → startsWithL m (t.drop k) = false) →
      removeFirst t m = a ++ b) := by
  refine ⟨?_, ?_, ?_, ?_, ?_⟩
  · intro t n hn
    simp [afterNameStep, hn]
  · intro t p hp
    simp [afterPhoneStep, hp]
  · intro t d
    simp [afterDTStep]
  · intro t m
    induction t with
    | nil => intro _; rfl
    | cons c cs ih =>
      intro h
      simp only [containsL, Bool.or_eq_false_iff] at h
      simp only [removeFirst, h.1, Bool.false_eq_true, if_false]
      rw [ih h.2]
  · intro t m a b
    induction a generalizing t with
    | nil =>
      intro ht _
      simp only [List.nil_append] at ht
      subst ht
      cases m with
      | nil =>
        cases b with
        | nil => rfl
        | cons c cs => simp [removeFirst, startsWithL]
      | cons x xs =>
        show removeFirst ((x :: xs) ++ b) (x :: xs) = b
        rw [show (x :: xs) ++ b = x :: (xs ++ b) from rfl]
        rw [removeFirst]
        rw [show (x :: (xs ++ b)) = (x :: xs) ++ b from rfl]
        rw [startsWithL_self_append]
        simp [List.drop_left]
    | cons c a' ih =>
      intro ht hfirst
      simp only [List.cons_append] at ht
      subst ht
      have h0 : startsWithL m (c :: (a' ++ m ++ b)) = false := by
        have := hfirst 0 (by simp)
        simpa using this
      rw [removeFirst, h0]
      simp only [Bool.false_eq_true, if_false]
      exact congrArg (fun l => c :: l) (ih _ rfl (fun k hk => by
        have := hfirst (k + 1) (by simpa using Nat.succ_lt_succ hk)
        simpa using this))

/-- Witness for C4: removal at a concrete input deletes only the first of
two identical occurrences. -/
theorem claim4_witness :
    removeFirst "zz abc abc".data "abc".data = "zz  abc".data := by
  have := claim4_removal.2.2.2.2 "zz abc abc".data "abc".data
    "zz ".data " abc".data (by decide) (by decide)
  simpa using this

-- ## C5: remote failure falls back to the rule-based extractor

/-- C5: whenever the remote extraction path fails (network error or
exception, non-success HTTP status, unparsable body, missing expected
content field), the async `parseAppointment` of `parser.ts` returns
exactly the rule-based result on the same original input text, and never
an error. -/
theorem claim5_fallback (o : RemoteOutcome) (t : List Char) (now : Int)
    (h : o.isFail = true) :
    parseAppointmentRemote o t now = parseAppointment t now := by
  have hguard : (trimL t).isEmpty = true → parseAppointment t now = none := by
    intro hg
    simp [parseAppointment, hg]
  cases o with
  | noApiKey => exact absurd h (by simp [RemoteOutcome.isFail])
  | parsed a b c d => exact absurd h (by simp [RemoteOutcome.isFail])
  | fetchError =>
    by_cases hg : (trimL t).isEmpty
    · simp [parseAppointmentRemote, hg, hguard hg]
    · simp [parseAppointmentRemote, hg]
  | httpError st bd =>
    by_cases hg : (trimL t).isEmpty
    · simp [parseAppointmentRemote, hg, hguard hg]
    · simp [parseAppointmentRemote, hg]
  | noContent =>
    by_cases hg : (trimL t).isEmpty
    · simp [parseAppointmentRemote, hg, hguard hg]
    · simp [parseAppointmentRemote, hg]
  | badJson ct =>
    by_cases hg : (trimL t).isEmpty
    · simp [parseAppointmentRemote, hg, hguard hg]
    · simp [parseAppointmentRemote, hg]

/-- Witness for C5 at a concrete failure and input. -/
theorem claim5_witness :
    parseAppointmentRemote (RemoteOutcome.httpError 500 "oops".data)
        "Bob called".data 0 =
      parseAppointment "Bob called".data 0 :=
  claim5_fallback _ _ _ (by decide)

-- ## C2: default datetime on cue-less input

/-- Counterexample to C2 as stated: at `now` = 1970-01-01 10:00:00.000Z,
`extract("hello")` (no date/time cues) returns a datetime of 09:00:00.000
on the invocation date — not the moment of parsing. -/
theorem claim2_counterexample :
    parseAppointment "hello".data 36000000 =
      some ⟨"Unknown".data, "No phone".data, "hello".data, 32400000⟩ ∧
    (32400000 : Int) ≠ 36000000 := by
  exact ⟨by decide, by decide⟩

/-- C2 amended: the date/time stage always matches (with empty raw text);
when its working text contains no cues, the resulting datetime is the
invocation date at 09:00:00.000 local — not the ambient now — and
`parseAppointment`'s datetime field is always the stage's datetime (the
`new Date().toISOString()` fallback is unreachable). -/
theorem claim2_default_time :
    (∀ t now,
      containsL "tomorrow".data (t.map lowerC) = false →
      scanWeekday false (t.map lowerC) = none →
      scanDate false t = none →
      scanTime12 false t = none →
      scanTime24 false t = none →
      extractDateTime t now = some ⟨[], setHM now 9 0⟩) ∧
    (∀ s now r, parseAppointment s now = some r →
      r.datetime =
        match extractDateTime (afterPhoneStep (afterNameStep (trimL s))) now
          with
        | some d => d.datetime
        | none => now) := by
  constructor
  · intro t now h1 h2 h3 h4 h5
    simp [extractDateTime, tomorrowStage, weekdayStage, numericDateStage,
      time12Stage, time24Stage, h1, h2, h3, h4, h5, trimL]
  · intro s now r hr
    by_cases he : (trimL s).isEmpty
    · simp [parseAppointment, he] at hr
    · simp only [parseAppointment, he, Bool.false_eq_true, if_false,
        Option.some.injEq] at hr
      subst hr
      rfl

/-- Witness for C2's amended theorem at a concrete cue-less input. -/
theorem claim2_witness :
    extractDateTime "hello".data 36000000 = some ⟨[], setHM 36000000 9 0⟩ :=
  claim2_default_time.1 "hello".data 36000000 (by decide) (by decide)
    (by decide) (by decide) (by decide)

-- ## C7: weekday offset computation

theorem tryWeekdayNameAt_mem {s w : List Char}
    (h : tryWeekdayNameAt s = some w) : w ∈ weekdayNames :=
  List.mem_of_find?_eq_some h

theorem tryNextWeekday_mem {s m0 w : List Char} {isN : Bool}
    (h : tryNextWeekday s = some (m0, w, isN)) : w ∈ weekdayNames := by
  simp only [tryNextWeekday] at h
  split at h
  · split at h
    · exact Option.noConfusion h
    · obtain ⟨w', hw', hw2⟩ := Option.map_eq_some'.mp h
      obtain ⟨-, rfl, -⟩ := Prod.mk.injEq .. ▸ hw2
      exact tryWeekdayNameAt_mem hw'
  · exact Option.noConfusion h

theorem tryWeekdayAt_mem {s m0 w : List Char} {isN : Bool}
    (h : tryWeekdayAt s = some (m0, w, isN)) : w ∈ weekdayNames := by
  unfold tryWeekdayAt at h
  cases hn : tryNextWeekday s with
  | some r =>
    rw [hn] at h
    simp only [Option.some.injEq] at h
    subst h
    exact tryNextWeekday_mem hn
  | none =>
    rw [hn] at h
    obtain ⟨w', hw', hw2⟩ := Option.map_eq_some'.mp h
    obtain ⟨-, rfl, -⟩ := Prod.mk.injEq .. ▸ hw2
    exact tryWeekdayNameAt_mem hw'

theorem scanWeekday_mem {pw : Bool} {s m0 w : List Char} {isN : Bool}
    (h : scanWeekday pw s = some (m0, w, isN)) : w ∈ weekdayNames := by
  induction s generalizing pw with
  | nil => exact Option.noConfusion h
  | cons c cs ih =>
    unfold scanWeekday at h
    by_cases hpw : pw = true
    · rw [if_pos hpw] at h
      exact ih h
    · rw [if_neg hpw] at h
      cases ht : tryWeekdayAt (c :: cs) with
      | some r =>
        rw [ht] at h
        cases h
        exact tryWeekdayAt_mem ht
      | none =>
        rw [ht] at h
        exact ih h

theorem wdIndex_bounds {w : List Char} (h : w ∈ weekdayNames) :
    0 ≤ wdIndex w ∧ wdIndex w ≤ 6 := by
  fin_cases h <;> exact ⟨by decide, by decide⟩

/-- C7: on a successful weekday match, the stage sets the working date to
`now + d` days with `d = target − current`, plus 7 exactly when `d ≤ 0`
or the `next` qualifier was present; the offset is always between 1 and
13 days and lands on the target weekday. -/
theorem claim7_weekday (lower : List Char) (now : Int) (st : Int × List Char)
    (m0 w : List Char) (isN : Bool)
    (h : scanWeekday false lower = some (m0, w, isN)) :
    ∃ d : Int,
      weekdayStage lower now st = (addDays now d, m0) ∧
      d = (if wdIndex w - weekdayOf now ≤ 0 ∨ isN = true
           then wdIndex w - weekdayOf now + 7
           else wdIndex w - weekdayOf now) ∧
      1 ≤ d ∧ d ≤ 13 ∧ weekdayOf (addDays now d) = wdIndex w := by
  have hb := wdIndex_bounds (scanWeekday_mem h)
  have hc := weekdayOf_bounds now
  refine ⟨_, ?_, rfl, ?_, ?_, ?_⟩
  · unfold weekdayStage
    rw [h]
  · split <;> omega
  · split <;> omega
  · rw [weekday_addDays]
    split <;> omega

/-- Witness for C7 at a concrete input and now = 0 (a Thursday). -/
theorem claim7_witness :
    ∃ d : Int,
      weekdayStage "see you next monday".data 0 (0, []) =
        (addDays 0 d, "next monday".data) ∧
      d = (if wdIndex "monday".data - weekdayOf 0 ≤ 0 ∨ true = true
           then wdIndex "monday".data - weekdayOf 0 + 7
           else wdIndex "monday".data - weekdayOf 0) ∧
      1 ≤ d ∧ d ≤ 13 ∧ weekdayOf (addDays 0 d) = wdIndex "monday".data :=
  claim7_weekday "see you next monday".data 0 (0, []) "next monday".data
    "monday".data true (by decide)

-- ## C9: phone round-trip and ten-digit acceptance

theorem extractPhoneB_shape {t : List Char} {p : PhoneMatch}
    (h : extractPhoneB t = some p) :
    (stripNonDigits p.raw).length = 10 ∧
      p.formatted = fmtPhone (stripNonDigits p.raw) := by
  unfold extractPhoneB at h
  cases hs : scanPhoneB t with
  | none => rw [hs] at h; exact Option.noConfusion h
  | some m =>
    rw [hs] at h
    by_cases hlen : (stripNonDigits m).length = 10
    · simp only [hlen, if_true] at h
      obtain rfl := Option.some.inj h
      exact ⟨hlen, rfl⟩
    · simp only [hlen, if_false] at h
      exact Option.noConfusion h

/-- C9: formatting any ten digits as `DDD-DDD-DDDD` and re-extracting
returns exactly that formatted string (raw and formatted alike); and
every accepted phone candidate has exactly ten digits after stripping
non-digits, with the formatted field computed from them — a candidate
failing the ten-digit test is never returned. -/
theorem claim9_phone :
    (∀ ds : List Char, ds.length = 10 → (∀ c ∈ ds, isDigitC c = true) →
      extractPhone (fmtPhone ds) = some ⟨fmtPhone ds, fmtPhone ds⟩) ∧
    (∀ t p, extractPhone t = some p →
      (stripNonDigits p.raw).length = 10 ∧
        p.formatted = fmtPhone (stripNonDigits p.raw)) := by
  constructor
  · intro ds hlen hall
    match ds, hlen with
    | [d1, d2, d3, d4, d5, d6, d7, d8, d9, d10], _ =>
      have h1 : isDigitC d1 = true := hall d1 (by simp)
      have h2 : isDigitC d2 = true := hall d2 (by simp)
      have h3 : isDigitC d3 = true := hall d3 (by simp)
      have h4 : isDigitC d4 = true := hall d4 (by simp)
      have h5 : isDigitC d5 = true := hall d5 (by simp)
      have h6 : isDigitC d6 = true := hall d6 (by simp)
      have h7 : isDigitC d7 = true := hall d7 (by simp)
      have h8 : isDigitC d8 = true := hall d8 (by simp)
      have h9 : isDigitC d9 = true := hall d9 (by simp)
      have h10 : isDigitC d10 = true := hall d10 (by simp)
      have hfmt : fmtPhone [d1, d2, d3, d4, d5, d6, d7, d8, d9, d10] =
          [d1, d2, d3, '-', d4, d5, d6, '-', d7, d8, d9, d10] := by
        simp [fmtPhone]
      rw [hfmt]
      have hA : phoneA [d1, d2, d3, '-', d4, d5, d6, '-', d7, d8, d9, d10] =
          some [d1, d2, d3, '-', d4, d5, d6, '-', d7, d8, d9, d10] := by
        simp [phoneA, phoneACore, phoneRp, phoneSepMid, phoneMid,
          phoneSepTail2, phoneTail2, takeDigits,
          h1, h2, h3, h4, h5, h6, h7, h8, h9, h10,
          digit_ne_of d1 '(' h1 (by decide),
          show isSepC '-' = true from by decide,
          show (('-' : Char) = ')') = False from by decide]
      have hscan : scanPhoneA [d1, d2, d3, '-', d4, d5, d6, '-', d7, d8, d9, d10] =
          some [d1, d2, d3, '-', d4, d5, d6, '-', d7, d8, d9, d10] := by
        rw [scanPhoneA, hA]
      have hstrip : stripNonDigits [d1, d2, d3, '-', d4, d5, d6, '-', d7, d8, d9, d10] =
          [d1, d2, d3, d4, d5, d6, d7, d8, d9, d10] := by
        simp [stripNonDigits, h1, h2, h3, h4, h5, h6, h7, h8, h9, h10,
          show isDigitC '-' = false from by decide]
      simp [extractPhone, hscan, hstrip, hfmt]
  · intro t p h
    unfold extractPhone at h
    cases hs : scanPhoneA t with
    | none =>
      rw [hs] at h
      exact extractPhoneB_shape h
    | some m =>
      rw [hs] at h
      by_cases hlen : (stripNonDigits m).length = 10
      · simp only [hlen, if_true] at h
        obtain rfl := Option.some.inj h
        exact ⟨hlen, rfl⟩
      · simp only [hlen, if_false] at h
        exact extractPhoneB_shape h

/-- Witness for C9 at a concrete digit sequence. -/
theorem claim9_witness :
    extractPhone (fmtPhone "0123456789".data) =
      some ⟨fmtPhone "0123456789".data, fmtPhone "0123456789".data⟩ :=
  claim9_phone.1 "0123456789".data (by decide) (by decide)

-- ## C10: unchecked 12-hour hour values roll the date forward

/-- C10: the 12-hour stage performs no range check — a two-digit hour of
13–99 with a `pm` suffix is accepted, `hours + 12` is applied, and the
resulting datetime rolls at least one day past the working date
(`(h+12)/24` days, time-of-day `(h+12) mod 24`); no error occurs and the
match is not rejected. -/
theorem claim10_hour_overflow (a b : Char) (now : Int)
    (ha : isDigitC a = true) (hb : isDigitC b = true)
    (h13 : 13 ≤ 10 * ((a.toNat : Int) - 48) + ((b.toNat : Int) - 48)) :
    ∃ dt, extractDateTime [a, b, 'p', 'm'] now = some dt ∧
      dt.raw = [a, b, 'p', 'm'] ∧
      dt.datetime =
        setHM
          (addDays now
            ((10 * ((a.toNat : Int) - 48) + ((b.toNat : Int) - 48) + 12) / 24))
          ((10 * ((a.toNat : Int) - 48) + ((b.toNat : Int) - 48) + 12) % 24)
          0 ∧
      1 ≤ (10 * ((a.toNat : Int) - 48) + ((b.toNat : Int) - 48) + 12) / 24 := by
  have hna := digit_toNat ha
  have hnb := digit_toNat hb
  have hlow : [a, b, 'p', 'm'].map lowerC = [a, b, 'p', 'm'] := by
    simp [digit_lowerC ha, digit_lowerC hb,
      show lowerC 'p' = 'p' from by decide,
      show lowerC 'm' = 'm' from by decide]
  have hTom : containsL "tomorrow".data [a, b, 'p', 'm'] = false := by
    have c1 : containsL "tomorrow".data ['p', 'm'] = false := by decide
    rw [show "tomorrow".data = ['t', 'o', 'm', 'o', 'r', 'r', 'o', 'w']
      from rfl] at c1 ⊢
    simp [containsL, startsWithL, digit_ne_of' a 't' ha (by decide),
      digit_ne_of' b 't' hb (by decide), c1]
  have hWd : scanWeekday false [a, b, 'p', 'm'] = none := by
    have c2 : scanWeekday true ['p', 'm'] = none := by decide
    have hnx : startsWithL "next".data [a, b, 'p', 'm'] = false := by
      rw [show "next".data = ['n', 'e', 'x', 't'] from rfl]
      simp [startsWithL, digit_ne_of' a 'n' ha (by decide)]
    have hfind : tryWeekdayNameAt [a, b, 'p', 'm'] = none := by
      simp [tryWeekdayNameAt, weekdayNames, List.find?, startsWithL,
        show "monday".data = ['m', 'o', 'n', 'd', 'a', 'y'] from rfl,
        show "tuesday".data = ['t', 'u', 'e', 's', 'd', 'a', 'y'] from rfl,
        show "wednesday".data =
          ['w', 'e', 'd', 'n', 'e', 's', 'd', 'a', 'y'] from rfl,
        show "thursday".data = ['t', 'h', 'u', 'r', 's', 'd', 'a', 'y']
          from rfl,
        show "friday".data = ['f', 'r', 'i', 'd', 'a', 'y'] from rfl,
        show "saturday".data = ['s', 'a', 't', 'u', 'r', 'd', 'a', 'y']
          from rfl,
        show "sunday".data = ['s', 'u', 'n', 'd', 'a', 'y'] from rfl,
        digit_ne_of' a 'm' ha (by decide), digit_ne_of' a 't' ha (by decide),
        digit_ne_of' a 'w' ha (by decide), digit_ne_of' a 'f' ha (by decide),
        digit_ne_of' a 's' ha (by decide)]
    simp [scanWeekday, tryWeekdayAt, tryNextWeekday, hnx, hfind,
      digit_isWord ha, digit_isWord hb, c2,
      show isWordC 'p' = true from by decide]
  have hDt : scanDate false [a, b, 'p', 'm'] = none := by
    have c3 : scanDate true ['p', 'm'] = none := by decide
    simp [scanDate, tryDateAt, tryMonthLen, takeDigits, ha, hb,
      show (('p' : Char) = '/') = False from by decide,
      digit_ne_of b '/' hb (by decide),
      digit_isWord ha, digit_isWord hb, c3,
      show isWordC 'p' = true from by decide]
  have h12 : scanTime12 false [a, b, 'p', 'm'] =
      some ([a, b, 'p', 'm'], [a, b], none, ['p', 'm']) := by
    have c5 : trySpacesMer ['p', 'm'] = some (['p', 'm'], ['p', 'm']) := by
      decide
    simp [scanTime12, tryTime12At, tryHourLen, takeDigits, ha, hb,
      tryColonMM, show (('p' : Char) = ':') = False from by decide, c5]
  have h24 : scanTime24 false [a, b, 'p', 'm'] = none := by
    have c4 : scanTime24 true ['p', 'm'] = none := by decide
    simp [scanTime24, tryTime24At, tryT24Len, takeDigits, ha, hb,
      show (('p' : Char) = ':') = False from by decide,
      digit_ne_of b ':' hb (by decide),
      digit_isWord ha, digit_isWord hb, c4,
      show isWordC 'p' = true from by decide]
  have hne12 : parseIntL [a, b] ≠ 12 := by
    simp only [parseIntL, List.foldl]
    omega
  have htrim : trimL (' ' :: [a, b, 'p', 'm']) = [a, b, 'p', 'm'] := by
    simp [trimL, List.dropWhile, digit_not_ws ha,
      show isJSWS ' ' = true from by decide,
      show isJSWS 'm' = false from by decide]
  have hval : parseIntL [a, b] =
      10 * ((a.toNat : Int) - 48) + ((b.toNat : Int) - 48) := by
    simp only [parseIntL, List.foldl]
    ring
  refine ⟨⟨[a, b, 'p', 'm'],
    setHM now (parseIntL [a, b] + 12) 0⟩, ?_, rfl, ?_, ?_⟩
  · simp only [extractDateTime, tomorrowStage, weekdayStage,
      numericDateStage, time12Stage, time24Stage, hlow, hTom, hWd, hDt,
      h12, h24, Bool.false_eq_true, if_false, Option.isSome_some,
      Option.some.injEq]
    simp [hne12, show ((['p', 'm'] : List Char) = ['a', 'm']) = False
      from by decide, htrim]
  · rw [hval]
    simp only [setHM, addDays, startOfDay, dayMs]
    omega
  · omega

/-- Witness for C10 at the concrete input `"19pm"`. -/
theorem claim10_witness :
    ∃ dt, extractDateTime ['1', '9', 'p', 'm'] 0 = some dt ∧
      dt.raw = ['1', '9', 'p', 'm'] ∧
      dt.datetime =
        setHM
          (addDays 0
            ((10 * (('1'.toNat : Int) - 48) + (('9'.toNat : Int) - 48) + 12)
              / 24))
          ((10 * (('1'.toNat : Int) - 48) + (('9'.toNat : Int) - 48) + 12)
            % 24)
          0 ∧
      1 ≤ (10 * (('1'.toNat : Int) - 48) + (('9'.toNat : Int) - 48) + 12)
            / 24 :=
  claim10_hour_overflow '1' '9' 0 (by decide) (by decide) (by decide)

-- ## C6: stage overwriting

/-- Counterexample to C6 as stated: with `now = 0` (a Thursday) and input
`"tomorrow friday 99pm"`, both the tomorrow cue and a weekday name match,
yet the returned datetime's date is not the weekday-derived date (Friday,
day 1): the unchecked `99pm` hour (99 + 12 = 111) rolls the date four
further days. -/
theorem claim6_counterexample :
    containsL "tomorrow".data ("tomorrow friday 99pm".data.map lowerC)
        = true ∧
    scanWeekday false ("tomorrow friday 99pm".data.map lowerC) =
      some ("friday".data, "friday".data, false) ∧
    extractDateTime "tomorrow friday 99pm".data 0 =
      some ⟨"friday 99pm".data, 486000000⟩ ∧
    startOfDay 486000000 ≠ startOfDay (addDays 0 1) := by
  exact ⟨by decide, by decide, by decide, by decide⟩

theorem extractDateTime_date (t : List Char) (now : Int)
    (ht : ∀ p : Int × Int, (time12Stage t).1 = some p →
      0 ≤ p.1 ∧ p.1 < 24 ∧ 0 ≤ p.2 ∧ p.2 < 60) :
    ∃ dt, extractDateTime t now = some dt ∧
      startOfDay dt.datetime =
        startOfDay (numericDateStage t now
          (weekdayStage (t.map lowerC) now
            (tomorrowStage (t.map lowerC) now))).1 := by
  cases t12s : scanTime12 false t with
  | none =>
    have e12 : time12Stage t = (none, none) := by simp [time12Stage, t12s]
    cases t24s : scanTime24 false t with
    | none =>
      have e24 : time24Stage t (scanTime12 false t).isSome = (none, none) :=
        by simp [time24Stage, t24s]
      simp only [extractDateTime, e12, e24]
      exact ⟨_, rfl, startOfDay_setHM _ 9 0 (by norm_num) (by norm_num)
        (by norm_num) (by norm_num)⟩
    | some q24 =>
      obtain ⟨m24, hs24, mm24⟩ := q24
      by_cases hr : 0 ≤ parseIntL hs24 ∧ parseIntL hs24 < 24 ∧
          0 ≤ parseIntL mm24 ∧ parseIntL mm24 < 60
      · have e24 : time24Stage t (scanTime12 false t).isSome =
            (some (parseIntL hs24, parseIntL mm24), some m24) := by
          simp [time24Stage, t24s, t12s, hr]
        simp only [extractDateTime, e12, e24]
        exact ⟨_, rfl, startOfDay_setHM _ _ _ hr.1 hr.2.1 hr.2.2.1
          hr.2.2.2⟩
      · have e24 : time24Stage t (scanTime12 false t).isSome =
            (none, none) := by
          simp [time24Stage, t24s, t12s, hr]
        simp only [extractDateTime, e12, e24]
        exact ⟨_, rfl, startOfDay_setHM _ 9 0 (by norm_num) (by norm_num)
          (by norm_num) (by norm_num)⟩
  | some q12 =>
    obtain ⟨m12, hs12, mm12, mer12⟩ := q12
    have e12 : time12Stage t =
        (some
          (if mer12 = "am".data ∧ parseIntL hs12 = 12 then 0
           else if mer12 = "pm".data ∧ parseIntL hs12 ≠ 12 then
             parseIntL hs12 + 12
           else parseIntL hs12,
          match mm12 with
          | some m => parseIntL m
          | none => 0),
        some m12) := by
      simp only [time12Stage, t12s]
      cases mm12 <;> rfl
    have hb := ht _ (by rw [e12])
    have e24 : time24Stage t (scanTime12 false t).isSome = (none, none) := by
      cases t24s : scanTime24 false t with
      | none => simp [time24Stage, t24s]
      | some q24 => simp [time24Stage, t24s, t12s]
    simp only [extractDateTime, e12, e24]
    exact ⟨_, rfl, startOfDay_setHM _ _ _ hb.1 hb.2.1 hb.2.2.1 hb.2.2.2⟩

/-- C6 amended: provided any matched time normalizes to a valid hour and
minute (hour < 24, minute < 60 — cf. the hour-overflow behavior, which
otherwise rolls the date further), the weekday stage's date unconditionally
overwrites the tomorrow stage's date whenever both cues match and no
explicit numeric date matches; and a matching explicit `M/D(/Y)` date
overwrites both earlier stages. -/
theorem claim6_amended :
    (∀ (t : List Char) (now : Int) (m0 w : List Char) (isN : Bool),
      containsL "tomorrow".data (t.map lowerC) = true →
      scanWeekday false (t.map lowerC) = some (m0, w, isN) →
      scanDate false t = none →
      (∀ p : Int × Int, (time12Stage t).1 = some p →
        0 ≤ p.1 ∧ p.1 < 24 ∧ 0 ≤ p.2 ∧ p.2 < 60) →
      ∃ dt, extractDateTime t now = some dt ∧
        startOfDay dt.datetime =
          addDays (startOfDay now)
            (if wdIndex w - weekdayOf now ≤ 0 ∨ isN = true
             then wdIndex w - weekdayOf now + 7
             else wdIndex w - weekdayOf now)) ∧
    (∀ (t : List Char) (now : Int) (m0 ms ds : List Char)
        (ys : Option (List Char)),
      scanDate false t = some (m0, ms, ds, ys) →
      (∀ p : Int × Int, (time12Stage t).1 = some p →
        0 ≤ p.1 ∧ p.1 < 24 ∧ 0 ≤ p.2 ∧ p.2 < 60) →
      ∃ dt, extractDateTime t now = some dt ∧
        startOfDay dt.datetime =
          mkDateJS
            (match ys with
             | some y =>
               if y.length = 2 then 2000 + parseIntL y else parseIntL y
             | none => getFullYear now)
            (parseIntL ms - 1) (parseIntL ds)) := by
  constructor
  · intro t now m0 w isN hTom hWd hDt ht
    obtain ⟨dt, hdt, hsod⟩ := extractDateTime_date t now ht
    refine ⟨dt, hdt, ?_⟩
    rw [hsod]
    simp only [numericDateStage, hDt, weekdayStage, hWd]
    exact startOfDay_addDays _ _
  · intro t now m0 ms ds ys hDt ht
    obtain ⟨dt, hdt, hsod⟩ := extractDateTime_date t now ht
    refine ⟨dt, hdt, ?_⟩
    rw [hsod]
    simp only [numericDateStage, hDt]
    exact startOfDay_mkDateJS _ _ _

/-- Witness for C6's amended theorem at a concrete input and now = 0. -/
theorem claim6_witness :
    ∃ dt, extractDateTime "tomorrow friday 3pm".data 0 = some dt ∧
      startOfDay dt.datetime =
        addDays (startOfDay 0)
          (if wdIndex "friday".data - weekdayOf 0 ≤ 0 ∨ false = true
           then wdIndex "friday".data - weekdayOf 0 + 7
           else wdIndex "friday".data - weekdayOf 0) :=
  claim6_amended.1 "tomorrow friday 3pm".data 0 "friday".data "friday".data
    false (by decide) (by decide) (by decide)
    (by
      intro p hp
      rw [show (time12Stage "tomorrow friday 3pm".data).1 =
        some ((15 : Int), (0 : Int)) from by decide] at hp
      obtain rfl := Option.some.inj hp
      exact ⟨by norm_num, by norm_num, by norm_num, by norm_num⟩)

-- ## C3: the canonical example input

/-- Counterexample to C3 as stated: at `now = 0`, the example input yields
details `"wants estimate Tuesday at 3pm"`, not `"wants estimate"` — the
matched span `"tuesday 3pm"` (lowercased, space-joined) does not occur
verbatim in the working text, so its removal is a no-op.  (486000000 ms is
the following Tuesday at 15:00, confirming the datetime half.) -/
theorem claim3_counterexample :
    parseAppointment
        "John Doe 7205551212 wants estimate Tuesday at 3pm".data 0 =
      some ⟨"John Doe".data, "720-555-1212".data,
        "wants estimate Tuesday at 3pm".data, 486000000⟩ ∧
    "wants estimate Tuesday at 3pm".data ≠ "wants estimate".data := by
  exact ⟨by decide, by decide⟩

theorem c3_extractDateTime (now : Int) :
    extractDateTime "wants estimate Tuesday at 3pm".data now =
      some ⟨"tuesday 3pm".data,
        setHM
          (addDays now
            (if 2 - weekdayOf now ≤ 0 then 2 - weekdayOf now + 7
             else 2 - weekdayOf now))
          15 0⟩ := by
  have hmap : "wants estimate Tuesday at 3pm".data.map lowerC =
      "wants estimate tuesday at 3pm".data := by decide
  have e0 : tomorrowStage
      ("wants estimate Tuesday at 3pm".data.map lowerC) now = (now, []) := by
    rw [hmap]
    simp [tomorrowStage,
      show containsL "tomorrow".data
        "wants estimate tuesday at 3pm".data = false from by decide]
  have e1 : weekdayStage ("wants estimate Tuesday at 3pm".data.map lowerC)
      now (now, []) =
      (addDays now
        (if 2 - weekdayOf now ≤ 0 then 2 - weekdayOf now + 7
         else 2 - weekdayOf now),
      "tuesday".data) := by
    rw [hmap]
    simp only [weekdayStage,
      show scanWeekday false "wants estimate tuesday at 3pm".data =
        some ("tuesday".data, "tuesday".data, false) from by decide]
    rw [show wdIndex "tuesday".data = 2 from by decide]
    simp
  have e2 : ∀ st, numericDateStage "wants estimate Tuesday at 3pm".data
      now st = st := by
    intro st
    simp [numericDateStage,
      show scanDate false "wants estimate Tuesday at 3pm".data = none
        from by decide]
  have e12 : time12Stage "wants estimate Tuesday at 3pm".data =
      (some (15, 0), some "3pm".data) := by decide
  have e24 : time24Stage "wants estimate Tuesday at 3pm".data
      (scanTime12 false "wants estimate Tuesday at 3pm".data).isSome =
      (none, none) := by decide
  simp only [extractDateTime, e0, e1, e2, e12, e24]
  rw [show trimL ("tuesday".data ++ ' ' :: "3pm".data) = "tuesday 3pm".data
    from by decide]

/-- C3 amended: the datetime half holds — time-of-day 15:00 on the next
Tuesday strictly after the invocation date — and name/phone are extracted;
but details equal `"wants estimate Tuesday at 3pm"` (the matched date/time
span is not removed, because the span is assembled lowercased and
space-joined and does not occur verbatim in the working text). -/
theorem claim3_amended (now : Int) :
    ∃ r, parseAppointment
        "John Doe 7205551212 wants estimate Tuesday at 3pm".data now =
      some r ∧
      r.name = "John Doe".data ∧
      r.phone = "720-555-1212".data ∧
      r.details = "wants estimate Tuesday at 3pm".data ∧
      ∃ d : Int, 1 ≤ d ∧ d ≤ 7 ∧ weekdayOf (addDays now d) = 2 ∧
        (∀ e : Int, 1 ≤ e → e < d → weekdayOf (addDays now e) ≠ 2) ∧
        r.datetime = setHM (addDays now d) 15 0 := by
  have s0 : trimL
      "John Doe 7205551212 wants estimate Tuesday at 3pm".data =
      "John Doe 7205551212 wants estimate Tuesday at 3pm".data := by decide
  have hne : ("John Doe 7205551212 wants estimate Tuesday at 3pm".data
      ).isEmpty = false := by decide
  have hname : extractName
      "John Doe 7205551212 wants estimate Tuesday at 3pm".data =
      some "John Doe".data := by decide
  have s1 : afterNameStep
      "John Doe 7205551212 wants estimate Tuesday at 3pm".data =
      "7205551212 wants estimate Tuesday at 3pm".data := by decide
  have hphone : extractPhone
      "7205551212 wants estimate Tuesday at 3pm".data =
      some ⟨"7205551212".data, "720-555-1212".data⟩ := by decide
  have s2 : afterPhoneStep "7205551212 wants estimate Tuesday at 3pm".data =
      "wants estimate Tuesday at 3pm".data := by decide
  have hdt := c3_extractDateTime now
  have s3 : afterDTStep "wants estimate Tuesday at 3pm".data
      (some ⟨"tuesday 3pm".data,
        setHM
          (addDays now
            (if 2 - weekdayOf now ≤ 0 then 2 - weekdayOf now + 7
             else 2 - weekdayOf now))
          15 0⟩) = "wants estimate Tuesday at 3pm".data := by
    simp only [afterDTStep]
    rw [show trimL (removeFirst "wants estimate Tuesday at 3pm".data
      "tuesday 3pm".data) = "wants estimate Tuesday at 3pm".data
      from by decide]
  have s4 : trimL "wants estimate Tuesday at 3pm".data =
      "wants estimate Tuesday at 3pm".data := by decide
  have hne2 : ("wants estimate Tuesday at 3pm".data).isEmpty = false := by
    decide
  simp only [parseAppointment, s0, hne, Bool.false_eq_true, if_false,
    hname, s1, hphone, s2, hdt, s3, s4, hne2]
  refine ⟨_, rfl, rfl, rfl, rfl, ?_⟩
  obtain ⟨hw1, hw2⟩ := weekdayOf_bounds now
  refine ⟨(if 2 - weekdayOf now ≤ 0 then 2 - weekdayOf now + 7
    else 2 - weekdayOf now), ?_, ?_, ?_, ?_, rfl⟩
  · by_cases hcc : 2 - weekdayOf now ≤ 0
    · rw [if_pos hcc]; omega
    · rw [if_neg hcc]; omega
  · by_cases hcc : 2 - weekdayOf now ≤ 0
    · rw [if_pos hcc]; omega
    · rw [if_neg hcc]; omega
  · rw [weekday_addDays]
    by_cases hcc : 2 - weekdayOf now ≤ 0
    · rw [if_pos hcc]; omega
    · rw [if_neg hcc]; omega
  · intro e he1 he2
    rw [weekday_addDays]
    by_cases hcc : 2 - weekdayOf now ≤ 0
    · rw [if_pos hcc] at he2; omega
    · rw [if_neg hcc] at he2; omega

/-- Witness for C3's amended theorem at now = 0. -/
theorem claim3_witness :
    ∃ r, parseAppointment
        "John Doe 7205551212 wants estimate Tuesday at 3pm".data 0 =
      some r ∧
      r.name = "John Doe".data ∧
      r.phone = "720-555-1212".data ∧
      r.details = "wants estimate Tuesday at 3pm".data ∧
      ∃ d : Int, 1 ≤ d ∧ d ≤ 7 ∧ weekdayOf (addDays 0 d) = 2 ∧
        (∀ e : Int, 1 ≤ e → e < d → weekdayOf (addDays 0 e) ≠ 2) ∧
        r.datetime = setHM (addDays 0 d) 15 0 :=
  claim3_amended 0

-- ## C8: name extraction lemmas

theorem upper_not_ws {c : Char} (h : isUpperC c = true) : isJSWS c = false := by
  simp only [isUpperC, decide_eq_true_eq] at h
  simp [isJSWS, wsCodes]
  omega

theorem ws_not_lower {c : Char} (h : isJSWS c = true) : isLowerC c = false := by
  simp only [isJSWS, wsCodes, decide_eq_true_eq] at h
  simp only [isLowerC, decide_eq_false_iff_not]
  simp at h
  omega

theorem sw_cons {c d : Char} {m s : List Char} :
    startsWithL (c :: m) (d :: s) = true ↔ c = d ∧ startsWithL m s = true := by
  simp [startsWithL]

theorem sw_append_left (a : List Char) :
    ∀ x y, startsWithL (a ++ x) (a ++ y) = startsWithL x y := by
  induction a with
  | nil => intro x y; rfl
  | cons c cs ih => intro x y; simp [startsWithL, ih]

theorem sw_takeWhile_align (p : Char → Bool) :
    ∀ (m s : List Char), startsWithL m s = true → m.dropWhile p ≠ [] →
      m.takeWhile p = s.takeWhile p ∧
      startsWithL (m.dropWhile p) (s.dropWhile p) = true := by
  intro m
  induction m with
  | nil => intro s _ hne; exact absurd rfl hne
  | cons c m' ih =>
    intro s hsw hne
    cases s with
    | nil => exact absurd hsw (by simp [startsWithL])
    | cons d s' =>
      obtain ⟨rfl, hsw'⟩ := sw_cons.mp hsw
      by_cases hp : p c = true
      · have hne' : m'.dropWhile p ≠ [] := by
          simpa [List.dropWhile_cons_of_pos hp] using hne
        obtain ⟨e1, e2⟩ := ih s' hsw' hne'
        constructor
        · rw [List.takeWhile_cons_of_pos hp, List.takeWhile_cons_of_pos hp,
            e1]
        · rw [List.dropWhile_cons_of_pos hp, List.dropWhile_cons_of_pos hp]
          exact e2
      · have hp' : ¬ p c := by simpa using hp
        constructor
        · rw [List.takeWhile_cons_of_neg hp', List.takeWhile_cons_of_neg hp']
        · rw [List.dropWhile_cons_of_neg hp', List.dropWhile_cons_of_neg hp']
          exact hsw

theorem sw_allP_le (p : Char → Bool) :
    ∀ (m s : List Char), startsWithL m s = true →
      (∀ c ∈ m, p c = true) → m.length ≤ (s.takeWhile p).length := by
  intro m
  induction m with
  | nil => intro s _ _; simp
  | cons c m' ih =>
    intro s hsw hall
    cases s with
    | nil => exact absurd hsw (by simp [startsWithL])
    | cons d s' =>
      obtain ⟨rfl, hsw'⟩ := sw_cons.mp hsw
      have hp : p c = true := hall c (by simp)
      rw [List.takeWhile_cons_of_pos hp]
      simpa using ih s' hsw' (fun x hx => hall x (by simp [hx]))

theorem runSt2_dropWhile_ws :
    ∀ m : List Char, runSt 2 m = true →
      ∃ c m', m.dropWhile isJSWS = c :: m' ∧ isUpperC c = true ∧
        runSt 0 m' = true := by
  intro m
  induction m with
  | nil => intro h; exact absurd h (by simp [runSt])
  | cons c cs ih =>
    intro h
    have h' : (isJSWS c = true ∧ runSt 2 cs = true) ∨
        (isUpperC c = true ∧ runSt 0 cs = true) := by
      simpa [runSt] using h
    rcases h' with ⟨hws, h2⟩ | ⟨hup, h0⟩
    · rw [List.dropWhile_cons_of_pos hws]
      exact ih h2
    · have hneg : ¬ isJSWS c = true := by simp [upper_not_ws hup]
      rw [List.dropWhile_cons_of_neg hneg]
      exact ⟨c, cs, rfl, hup, h0⟩

theorem runSt0_shape {m : List Char} (h : runSt 0 m = true) :
    ∃ l m', m = l :: m' ∧ isLowerC l = true ∧ runSt 1 m' = true := by
  cases m with
  | nil => exact absurd h (by simp [runSt])
  | cons l m' =>
    have h' : isLowerC l = true ∧ runSt 1 m' = true := by
      simpa [runSt] using h
    exact ⟨l, m', rfl, h'.1, h'.2⟩

theorem runSt1_dropWhile :
    ∀ m : List Char, runSt 1 m = true →
      m.dropWhile isLowerC = [] ∨ runT (m.dropWhile isLowerC) = true := by
  intro m
  induction m with
  | nil => intro _; left; rfl
  | cons c cs ih =>
    intro h
    have h' : (isLowerC c = true ∧ runSt 1 cs = true) ∨
        (isJSWS c = true ∧ runSt 2 cs = true) := by
      simpa [runSt] using h
    rcases h' with ⟨hlo, h1⟩ | ⟨hws, h2⟩
    · rw [List.dropWhile_cons_of_pos hlo]
      exact ih h1
    · have hneg : ¬ isLowerC c = true := by simp [ws_not_lower hws]
      rw [List.dropWhile_cons_of_neg hneg]
      right
      simp [runT, hws, h2]

theorem runSt1_build :
    ∀ (ls t : List Char), (∀ c ∈ ls, isLowerC c = true) → runT t = true →
      runSt 1 (ls ++ t) = true := by
  intro ls
  induction ls with
  | nil =>
    intro t _ ht
    cases t with
    | nil => rfl
    | cons c cs =>
      have h' : isJSWS c = true ∧ runSt 2 cs = true := by
        simpa [runT] using ht
      simp [runSt, h'.1, h'.2]
  | cons l ls' ih =>
    intro t hall ht
    have := ih t (fun x hx => hall x (by simp [hx])) ht
    simp [runSt, hall l (by simp), this]

theorem runSt2_build :
    ∀ (ws : List Char) (u : Char) (ls t : List Char),
      (∀ c ∈ ws, isJSWS c = true) → isUpperC u = true → ls ≠ [] →
      (∀ c ∈ ls, isLowerC c = true) → runT t = true →
      runSt 2 (ws ++ u :: ls ++ t) = true := by
  intro ws
  induction ws with
  | nil =>
    intro u ls t _ hu hne hall ht
    cases ls with
    | nil => exact absurd rfl hne
    | cons l ls' =>
      have h1 := runSt1_build ls' t (fun x hx => hall x (by simp [hx])) ht
      simp [runSt, hu, hall l (by simp), h1]
  | cons w ws' ih =>
    intro u ls t hall hu hne hall2 ht
    have h2 := ih u ls t (fun x hx => hall x (by simp [hx])) hu hne hall2 ht
    simp only [List.cons_append]
    simp only [runSt, hall w (by simp), Bool.true_and, Bool.or_eq_true,
      Bool.and_eq_true]
    exact Or.inl h2

theorem runT_build (ws : List Char) (u : Char) (ls t : List Char)
    (hne : ws ≠ []) (hall : ∀ c ∈ ws, isJSWS c = true)
    (hu : isUpperC u = true) (hlne : ls ≠ [])
    (hall2 : ∀ c ∈ ls, isLowerC c = true) (ht : runT t = true) :
    runT (ws ++ u :: ls ++ t) = true := by
  cases ws with
  | nil => exact absurd rfl hne
  | cons w ws' =>
    have h2 := runSt2_build ws' u ls t (fun x hx => hall x (by simp [hx])) hu
      hlne hall2 ht
    simp only [List.cons_append]
    simp only [runT, hall w (by simp), Bool.true_and]
    exact h2

theorem isWsRunB_build (u : Char) (ls t : List Char)
    (hu : isUpperC u = true) (hlne : ls ≠ [])
    (hall : ∀ c ∈ ls, isLowerC c = true) (ht : runT t = true) :
    isWsRunB (u :: ls ++ t) = true := by
  cases ls with
  | nil => exact absurd rfl hlne
  | cons l ls' =>
    have h1 := runSt1_build ls' t (fun x hx => hall x (by simp [hx])) ht
    simp [isWsRunB, runSt, hu, hall l (by simp), h1]

theorem nameWord_some :
    ∀ {s w rest : List Char}, nameWord s = some (w, rest) →
      ∃ c cs, s = c :: cs ∧ isUpperC c = true ∧
        cs.takeWhile isLowerC ≠ [] ∧
        w = c :: cs.takeWhile isLowerC ∧ rest = cs.dropWhile isLowerC := by
  intro s w rest h
  cases s with
  | nil => exact Option.noConfusion h
  | cons c cs =>
    by_cases hu : isUpperC c = true
    · rw [nameWord, if_pos hu] at h
      cases htw : cs.takeWhile isLowerC with
      | nil => rw [htw] at h; exact Option.noConfusion h
      | cons l ls =>
        rw [htw] at h
        obtain ⟨h1, h2⟩ := Prod.mk.injEq .. ▸ Option.some.inj h
        exact ⟨c, cs, rfl, hu, by rw [htw]; simp, by rw [htw, ← h1],
          h2.symm⟩
    · rw [nameWord, if_neg hu] at h
      exact Option.noConfusion h

theorem nameWord_shrink {s w rest : List Char}
    (h : nameWord s = some (w, rest)) :
    rest.length + 2 ≤ s.length ∧ s = w ++ rest := by
  obtain ⟨c, cs, rfl, hu, htw, hw, hr⟩ := nameWord_some h
  have hlen : (cs.takeWhile isLowerC).length +
      (cs.dropWhile isLowerC).length = cs.length := by
    rw [← List.length_append, List.takeWhile_append_dropWhile]
  have h1 : 1 ≤ (cs.takeWhile isLowerC).length := by
    cases htk : cs.takeWhile isLowerC with
    | nil => exact absurd htk htw
    | cons _ _ => simp
  constructor
  · subst hr
    simp only [List.length_cons]
    omega
  · subst hw hr
    simp only [List.cons_append, List.cons.injEq, true_and]
    exact (List.takeWhile_append_dropWhile isLowerC cs).symm

theorem nameTailF_sw :
    ∀ (f : Nat) (s : List Char), startsWithL (nameTailF f s) s = true := by
  intro f
  induction f with
  | zero => intro s; rfl
  | succ f ih =>
    intro s
    cases htw : s.takeWhile isJSWS with
    | nil => simp [nameTailF, htw, startsWithL]
    | cons w0 ws =>
      cases hnw : nameWord (s.dropWhile isJSWS) with
      | none => simp [nameTailF, htw, hnw, startsWithL]
      | some p =>
        obtain ⟨w, rest⟩ := p
        have hdrop : s.dropWhile isJSWS = w ++ rest := (nameWord_shrink hnw).2
        have hs : s = (w0 :: ws) ++ (w ++ rest) := by
          rw [← htw, ← hdrop]
          exact (List.takeWhile_append_dropWhile isJSWS s).symm
        simp only [nameTailF, htw, hnw]
        rw [List.append_assoc, hs, sw_append_left, sw_append_left]
        exact ih rest

theorem nameTailF_runT :
    ∀ (f : Nat) (s : List Char), runT (nameTailF f s) = true := by
  intro f
  induction f with
  | zero => intro s; rfl
  | succ f ih =>
    intro s
    cases htw : s.takeWhile isJSWS with
    | nil => simp [nameTailF, htw, runT]
    | cons w0 ws =>
      cases hnw : nameWord (s.dropWhile isJSWS) with
      | none => simp [nameTailF, htw, hnw, runT]
      | some p =>
        obtain ⟨w, rest⟩ := p
        obtain ⟨c, cs, hseq, hu, htk, hw, hr⟩ := nameWord_some hnw
        simp only [nameTailF, htw, hnw]
        subst hw
        have hallws : ∀ x ∈ w0 :: ws, isJSWS x = true := fun x hx =>
          List.mem_takeWhile_imp (htw ▸ hx)
        have halltw : ∀ x ∈ cs.takeWhile isLowerC, isLowerC x = true :=
          fun x hx => List.mem_takeWhile_imp hx
        have hb := runT_build (w0 :: ws) c (cs.takeWhile isLowerC)
          (nameTailF f rest) (by simp) hallws hu htk halltw (ih rest)
        simp only [List.cons_append, List.append_assoc] at hb ⊢
        exact hb

theorem run_max :
    ∀ (k : Nat) (m : List Char), m.length ≤ k →
      ((runT m = true → ∀ (f : Nat) (s : List Char), s.length ≤ f →
          startsWithL m s = true → m.length ≤ (nameTailF f s).length) ∧
       (runSt 0 m = true → ∀ (f : Nat) (tl : List Char),
          (tl.dropWhile isLowerC).length ≤ f →
          startsWithL m tl = true →
          m.length ≤ (tl.takeWhile isLowerC).length +
            (nameTailF f (tl.dropWhile isLowerC)).length)) := by
  intro k
  induction k with
  | zero =>
    intro m hm
    have hm0 : m = [] := List.length_eq_zero.mp (Nat.le_zero.mp hm)
    subst hm0
    exact ⟨fun _ _ _ _ _ => by simp,
      fun h0 => absurd h0 (by simp [runSt])⟩
  | succ k ih =>
    intro m hm
    constructor
    · -- runT part
      intro hrT f s hsf hsw
      cases m with
      | nil => simp
      | cons c m' =>
        have hcm : isJSWS c = true ∧ runSt 2 m' = true := by
          simpa [runT] using hrT
        obtain ⟨u, m3, hdropm', hupu, h0⟩ := runSt2_dropWhile_ws m' hcm.2
        have hdropm : (c :: m').dropWhile isJSWS = u :: m3 := by
          rw [List.dropWhile_cons_of_pos hcm.1, hdropm']
        have hne : (c :: m').dropWhile isJSWS ≠ [] := by
          rw [hdropm]; simp
        obtain ⟨halign, hswd⟩ := sw_takeWhile_align isJSWS (c :: m') s hsw hne
        -- s's whitespace run is nonempty
        have hstw : s.takeWhile isJSWS = c :: m'.takeWhile isJSWS := by
          rw [← halign, List.takeWhile_cons_of_pos hcm.1]
        -- s is nonempty, so f = f' + 1
        cases s with
        | nil => exact absurd hsw (by simp [startsWithL])
        | cons d s' =>
        cases f with
        | zero => exact absurd hsf (by simp)
        | succ f' =>
        -- the head of s.dropWhile is u, and nameWord succeeds there
        rw [hdropm] at hswd
        obtain ⟨r1, hr1⟩ := (startsWithL_iff _ _).mp hswd
        obtain ⟨l, m4, rfl, hlow, h1⟩ := runSt0_shape h0
        -- name the components of s's drop
        have hsd : (d :: s').dropWhile isJSWS = u :: (l :: m4 ++ r1) := by
          rw [hr1]; rfl
        have hswm3 : startsWithL (l :: m4) (l :: m4 ++ r1) = true :=
          startsWithL_self_append _ _
        have hnw : nameWord ((d :: s').dropWhile isJSWS) =
            some (u :: (l :: m4 ++ r1).takeWhile isLowerC,
              (l :: m4 ++ r1).dropWhile isLowerC) := by
          rw [hsd, nameWord, if_pos hupu]
          cases htk2 : (l :: m4 ++ r1).takeWhile isLowerC with
          | nil =>
            exfalso
            rw [List.cons_append, List.takeWhile_cons_of_pos hlow] at htk2
            exact List.noConfusion htk2
          | cons x xs => rfl
        -- lengths: |m| = |takeWhile ws of s| + |l :: m4| + 1
        have hmlen : (c :: m').length =
            ((d :: s').takeWhile isJSWS).length + (l :: m4).length + 1 := by
          have e := congrArg List.length
            (List.takeWhile_append_dropWhile isJSWS (c :: m'))
          rw [hdropm, halign] at e
          simp only [List.length_append, List.length_cons] at e ⊢
          omega
        -- part-2 IH at m3 = l :: m4 with tail = l :: m4 ++ r1
        have hm3k : (l :: m4).length ≤ k := by
          have h5 : (c :: m').length ≤ k + 1 := hm
          omega
        have hfuel : ((l :: m4 ++ r1).dropWhile isLowerC).length ≤ f' := by
          have e1 := congrArg List.length
            (List.takeWhile_append_dropWhile isJSWS (d :: s'))
          rw [hsd] at e1
          have e2 := congrArg List.length
            (List.takeWhile_append_dropWhile isLowerC (l :: m4 ++ r1))
          have e3 : 1 ≤ ((l :: m4 ++ r1).takeWhile isLowerC).length := by
            rw [List.cons_append, List.takeWhile_cons_of_pos hlow]
            simp
          have e4 : 1 ≤ ((d :: s').takeWhile isJSWS).length := by
            rw [hstw]; simp
          simp only [List.length_append, List.length_cons] at e1 e2 hsf ⊢
          omega
        have h2 := (ih (l :: m4) hm3k).2 h0 f' (l :: m4 ++ r1) hfuel hswm3
        have hout : (nameTailF (f' + 1) (d :: s')).length =
            ((d :: s').takeWhile isJSWS).length + 1 +
            ((l :: m4 ++ r1).takeWhile isLowerC).length +
            (nameTailF f' ((l :: m4 ++ r1).dropWhile isLowerC)).length := by
          rw [nameTailF, hstw, hnw]
          simp only [List.length_append, List.length_cons, hstw]
          omega
        rw [hout]
        omega
    · -- runSt 0 part
      intro h0 f tl hfuel hsw
      obtain ⟨l, m4, rfl, hlow, h1⟩ := runSt0_shape h0
      cases hd : (l :: m4).dropWhile isLowerC with
      | nil =>
        have hall : ∀ x ∈ l :: m4, isLowerC x = true :=
          List.dropWhile_eq_nil_iff.mp hd
        have := sw_allP_le isLowerC (l :: m4) tl hsw hall
        omega
      | cons c5 m5 =>
        have hne : (l :: m4).dropWhile isLowerC ≠ [] := by rw [hd]; simp
        obtain ⟨halign, hswd⟩ := sw_takeWhile_align isLowerC (l :: m4) tl
          hsw hne
        have hrT5 : runT ((l :: m4).dropWhile isLowerC) = true := by
          rw [List.dropWhile_cons_of_pos hlow]
          rcases runSt1_dropWhile m4 h1 with hnil | hok
          · exfalso
            rw [List.dropWhile_cons_of_pos hlow, hnil] at hd
            exact List.noConfusion hd
          · exact hok
        have hlt : ((l :: m4).dropWhile isLowerC).length ≤ k := by
          have e2 := congrArg List.length
            (List.takeWhile_append_dropWhile isLowerC (l :: m4))
          have e3 : 1 ≤ ((l :: m4).takeWhile isLowerC).length := by
            rw [List.takeWhile_cons_of_pos hlow]; simp
          have h5 : (l :: m4).length ≤ k + 1 := hm
          simp only [List.length_append, List.length_cons] at e2 h5 ⊢
          omega
        have h2 := (ih ((l :: m4).dropWhile isLowerC) hlt).1 hrT5 f
          (tl.dropWhile isLowerC) hfuel hswd
        have e2 := congrArg List.length
          (List.takeWhile_append_dropWhile isLowerC (l :: m4))
        rw [halign] at e2
        simp only [List.length_append] at e2
        omega

/-- Counterexample to C8 as stated: on `"John  Doe"` (two spaces) the
extractor returns the whole string, which is not a sequence of capitalized
words separated by single spaces (the regex separator is `\s+`, not a
single space) — so the claimed "longest run separated by single spaces"
(`"John"`) is not what is returned. -/
theorem claim8_counterexample :
    extractName "John  Doe".data = some "John  Doe".data ∧
    isSingleSpacedRun "John  Doe".data = false ∧
    isSingleSpacedRun "John".data = true := by
  exact ⟨by decide, by decide, by decide⟩

/-- C8 amended: `extractName` succeeds exactly when the text starts with a
capital letter followed by a lowercase letter; on success it returns the
longest prefix of the text of the shape capitalized-words-separated-by-
whitespace-runs (`[A-Z][a-z]+(\s+[A-Z][a-z]+)*`, separators `\s+` rather
than single spaces); and `extract("call Bob tomorrow")` leaves the name
sentinel `"Unknown"`. -/
theorem claim8_amended :
    (∀ s : List Char, (extractName s).isSome = true ↔
      ∃ c d cs, s = c :: d :: cs ∧ isUpperC c = true ∧ isLowerC d = true) ∧
    (∀ s n, extractName s = some n →
      isWsRunB n = true ∧ startsWithL n s = true ∧
      ∀ m, isWsRunB m = true → startsWithL m s = true →
        m.length ≤ n.length) ∧
    (∀ now : Int, ∃ r,
      parseAppointment "call Bob tomorrow".data now = some r ∧
      r.name = "Unknown".data) := by
  refine ⟨?_, ?_, ?_⟩
  · intro s
    constructor
    · intro h
      cases s with
      | nil => simp [extractName, nameWord] at h
      | cons c cs =>
        by_cases hu : isUpperC c = true
        · cases cs with
          | nil => simp [extractName, nameWord, hu] at h
          | cons d cs' =>
            by_cases hl : isLowerC d = true
            · exact ⟨c, d, cs', rfl, hu, hl⟩
            · rw [extractName, nameWord, if_pos hu,
                List.takeWhile_cons_of_neg (by simpa using hl)] at h
              simp at h
        · simp [extractName, nameWord, hu] at h
    · rintro ⟨c, d, cs, rfl, hu, hl⟩
      rw [extractName, nameWord, if_pos hu, List.takeWhile_cons_of_pos hl]
      rfl
  · intro s n h
    unfold extractName at h
    cases hnw : nameWord s with
    | none => rw [hnw] at h; exact Option.noConfusion h
    | some p =>
      obtain ⟨w, rest⟩ := p
      rw [hnw] at h
      obtain rfl := Option.some.inj h
      have hsplit := (nameWord_shrink hnw).2
      obtain ⟨c, cs, rfl, hu, htk, hw, hr⟩ := nameWord_some hnw
      subst hw
      subst hr
      refine ⟨?_, ?_, ?_⟩
      · have hb := isWsRunB_build c (cs.takeWhile isLowerC)
          (nameTail (cs.dropWhile isLowerC)) hu htk
          (fun x hx => List.mem_takeWhile_imp hx)
          (nameTailF_runT _ _)
        simpa [List.cons_append] using hb
      · rw [hsplit, sw_append_left]
        exact nameTailF_sw _ _
      · intro m hm hswm
        cases m with
        | nil => simp
        | cons u m3 =>
          have h' : isUpperC u = true ∧ runSt 0 m3 = true := by
            simpa [isWsRunB] using hm
          obtain ⟨rfl, hswm3⟩ := sw_cons.mp hswm
          have h2 := (run_max m3.length m3 le_rfl).2 h'.2
            (cs.dropWhile isLowerC).length cs le_rfl hswm3
          have e : nameTail (cs.dropWhile isLowerC) =
              nameTailF (cs.dropWhile isLowerC).length
                (cs.dropWhile isLowerC) := rfl
          simp only [List.length_cons, List.cons_append, List.length_append,
            e]
          omega
  · intro now
    have hname : extractName "call Bob tomorrow".data = none := by decide
    have s1 : afterNameStep "call Bob tomorrow".data =
        "call Bob tomorrow".data := by
      simp [afterNameStep, hname]
    have hphone : extractPhone "call Bob tomorrow".data = none := by decide
    have s2 : afterPhoneStep "call Bob tomorrow".data =
        "call Bob tomorrow".data := by
      simp [afterPhoneStep, hphone]
    have hmap : "call Bob tomorrow".data.map lowerC =
        "call bob tomorrow".data := by decide
    have e0 : tomorrowStage ("call Bob tomorrow".data.map lowerC) now =
        (addDays now 1, "tomorrow".data) := by
      rw [hmap]
      simp [tomorrowStage,
        show containsL "tomorrow".data "call bob tomorrow".data = true
          from by decide]
    have e1 : ∀ st, weekdayStage ("call Bob tomorrow".data.map lowerC)
        now st = st := by
      intro st
      rw [hmap]
      simp [weekdayStage,
        show scanWeekday false "call bob tomorrow".data = none
          from by decide]
    have e2 : ∀ st, numericDateStage "call Bob tomorrow".data now st
        = st := by
      intro st
      simp [numericDateStage,
        show scanDate false "call Bob tomorrow".data = none from by decide]
    have e12 : time12Stage "call Bob tomorrow".data = (none, none) := by
      decide
    have e24 : time24Stage "call Bob tomorrow".data
        (scanTime12 false "call Bob tomorrow".data).isSome =
        (none, none) := by decide
    have hdt : extractDateTime "call Bob tomorrow".data now =
        some ⟨"tomorrow".data, setHM (addDays now 1) 9 0⟩ := by
      simp only [extractDateTime, e0, e1, e2, e12, e24]
      rw [show trimL "tomorrow".data = "tomorrow".data from by decide]
    have s3 : afterDTStep "call Bob tomorrow".data
        (some ⟨"tomorrow".data, setHM (addDays now 1) 9 0⟩) =
        "call Bob".data := by
      simp only [afterDTStep]
      rw [show trimL (removeFirst "call Bob tomorrow".data
        "tomorrow".data) = "call Bob".data from by decide]
    have s0 : trimL "call Bob tomorrow".data = "call Bob tomorrow".data :=
      by decide
    have hne : ("call Bob tomorrow".data).isEmpty = false := by decide
    simp only [parseAppointment, s0, hne, Bool.false_eq_true, if_false,
      hname, s1, hphone, s2, hdt, s3]
    exact ⟨_, rfl, rfl⟩

/-- Witness for C8's amended theorem at a concrete input. -/
theorem claim8_witness :
    isWsRunB "John Doe".data = true ∧
    startsWithL "John Doe".data "John Doe x".data = true ∧
    ("John".data).length ≤ ("John Doe".data).length := by
  obtain ⟨h1, h2, hmax⟩ := claim8_amended.2.1 "John Doe x".data
    "John Doe".data (by decide)
  exact ⟨h1, h2, hmax "John".data (by decide) (by decide)⟩
